import Mathlib

set_option maxHeartbeats 1000000

/-! Verification of the Findora single-page application
(src/findora/ai_studio_code.ts).  Strings are modelled as lists of
characters; the JavaScript builtins the code relies on (String.trim, the
regular-expression block search, Array.map/filter, Map insertion order,
String.substring) are embedded as small executable functions.  The JSON
parse builtin is kept abstract: the state-transition function of the app
takes the parser as an explicit argument, so every theorem quantifies over
all possible parser behaviours. -/

/-- Whitespace characters stripped by the JavaScript trim builtin: the
ECMAScript WhiteSpace production (tab, vertical tab, form feed, space,
no-break space, zero-width no-break space and every Space_Separator code
point, that is U+1680, U+2000 to U+200A, U+202F, U+205F and U+3000)
together with the LineTerminator production (line feed, carriage return,
line separator, paragraph separator). -/
def isJSWhitespace (c : Char) : Bool :=
  c == ' ' || c == '\t' || c == '\n' ||
  c == '\r' || c == '\x0b' || c == '\x0c' ||
  c == '\xa0' || c == '\u1680' || c == '\u2000' ||
  c == '\u2001' || c == '\u2002' || c == '\u2003' ||
  c == '\u2004' || c == '\u2005' || c == '\u2006' ||
  c == '\u2007' || c == '\u2008' || c == '\u2009' ||
  c == '\u200A' || c == '\u202F' || c == '\u205F' ||
  c == '\u3000' || c == '\u2028' || c == '\u2029' ||
  c == '\uFEFF'

/-- JavaScript String.prototype.trim: strip whitespace from both ends. -/
def jsTrim (s : List Char) : List Char :=
  ((s.dropWhile isJSWhitespace).reverse.dropWhile isJSWhitespace).reverse

/-- Does the second list start with the first one? -/
def leadsWith : List Char → List Char → Bool
  | [], _ => true
  | _ :: _, [] => false
  | p :: ps, c :: cs => p == c && leadsWith ps cs

/-- Drop everything up to and including the first occurrence of the pattern;
none when the pattern does not occur. -/
def dropThroughFirst (pat : List Char) : List Char → Option (List Char)
  | [] => none
  | c :: rest =>
    if leadsWith pat (c :: rest) then some ((c :: rest).drop pat.length)
    else dropThroughFirst pat rest

/-- Keep everything strictly before the first occurrence of the pattern;
none when the pattern does not occur. -/
def takeUntilFirst (pat : List Char) : List Char → Option (List Char)
  | [] => none
  | c :: rest =>
    if leadsWith pat (c :: rest) then some []
    else (takeUntilFirst pat rest).map (fun l => c :: l)

/-- Opening delimiter of the markdown code block searched for by the regular
expression on line 70 of the source. -/
def jsonFence : List Char := "```json\n".data

/-- Closing delimiter of the markdown code block. -/
def closeFence : List Char := "\n```".data

/-- Capture group of the first match of the lazy regular expression
used on line 70: the text between the first opening fence and the first
closing fence after it. -/
def regexBlockContent (t : List Char) : Option (List Char) :=
  (dropThroughFirst jsonFence t).bind (fun r => takeUntilFirst closeFence r)

/-- Lines 69-73 of the source: trim the response text, then replace it by the
capture group of the regular-expression match when that capture is truthy
(a non-empty string). -/
def extractPayload (s : List Char) : List Char :=
  let t := jsTrim s
  match regexBlockContent t with
  | some c => if c = [] then t else c
  | none => t

/-- Runtime JSON values, as produced by the JSON parse builtin. -/
inductive JValue where
  | null
  | bool (b : Bool)
  | num (n : Int)
  | str (s : List Char)
  | arr (elems : List JValue)
  | obj (fields : List (List Char × JValue))

/-- JavaScript property access on a parsed JSON value; none models the
undefined result.  Property access on null throws a TypeError instead of
yielding undefined; applyModelResult routes the null-response case to the
inner catch, so this function is only ever applied to non-null values. -/
def jsField : JValue → List Char → Option JValue
  | JValue.obj fields, k => (fields.find? (fun p => p.1 == k)).map (fun p => p.2)
  | _, _ => none

/-- JavaScript truthiness of a JSON value. -/
def jsTruthy : JValue → Bool
  | JValue.null => false
  | JValue.bool b => b
  | JValue.num n => !(n == 0)
  | JValue.str s => !s.isEmpty
  | JValue.arr _ => true
  | JValue.obj _ => true

/-- JavaScript expression x || y where x may be undefined. -/
def jsOrElse (x : Option JValue) (y : JValue) : JValue :=
  match x with
  | some v => if jsTruthy v then v else y
  | none => y

/-- JavaScript property read v.length on the runtime values the app can
store as products: arrays and strings expose their length as a number, a
plain object exposes its stored length field if any, and other primitives
have no such property (undefined).  Stored products are never null, since
null is falsy and replaced by the empty array. -/
def jsLengthProp : JValue → Option JValue
  | JValue.arr l => some (JValue.num l.length)
  | JValue.str s => some (JValue.num s.length)
  | JValue.obj fields =>
    (fields.find? (fun p => p.1 == "length".data)).map (fun p => p.2)
  | _ => none

/-- JavaScript test v.length === 0 (line 141): strict equality holds
exactly when the length property exists and is the number zero. -/
def jsLengthEqZero (v : JValue) : Bool :=
  match jsLengthProp v with
  | some (JValue.num n) => n == 0
  | _ => false

/-- Key of the products property looked up on the parsed response. -/
def productsKey : List Char := "products".data

/-- Citation source record (interface Source, lines 22-25). -/
structure Source where
  uri : List Char
  title : List Char
deriving DecidableEq

/-- Web part of a grounding chunk: a uri (possibly the empty string) and an
optional title. -/
structure GroundingWeb where
  uri : List Char
  title : Option (List Char)
deriving DecidableEq

/-- Grounding chunk returned by the model: an optional web part. -/
structure GroundingChunk where
  web : Option GroundingWeb
deriving DecidableEq

/-- JavaScript expression chunk.web.title || chunk.web.uri (line 62). -/
def webTitle (w : GroundingWeb) : List Char :=
  match w.title with
  | some t => if t = [] then w.uri else t
  | none => w.uri

/-- Lines 61-63: map each chunk with a truthy web uri to a source record and
drop the rest. -/
def webSources (chunks : List GroundingChunk) : List Source :=
  chunks.filterMap (fun c =>
    match c.web with
    | some w => if w.uri = [] then none else some ⟨w.uri, webTitle w⟩
    | none => none)

/-- One JavaScript Map.set step on an association list kept in insertion
order: an existing key keeps its position and gets the new value, a new key
is appended at the end. -/
def sourceStep (m : List (List Char × Source)) (s : Source) :
    List (List Char × Source) :=
  if m.any (fun p => p.1 == s.uri) then
    m.map (fun p => if p.1 == s.uri then (s.uri, s) else p)
  else m ++ [(s.uri, s)]

/-- Line 65: Array.from(new Map(webSources.map(item => [item.uri, item])).values()). -/
def uniqueSources (ws : List Source) : List Source :=
  (ws.foldl sourceStep []).map (fun p => p.2)

/-- React state of the App component (lines 28-34).  The products state is a
raw runtime value because setProducts stores the parsed JSON field without
validation. -/
structure AppState where
  query : List Char
  products : JValue
  sources : List Source
  isLoading : Bool
  isListening : Bool
  error : Option (List Char)
  searched : Bool

/-- Initial state produced by the useState calls. -/
def initialState : AppState :=
  { query := [], products := JValue.arr [], sources := [], isLoading := false,
    isListening := false, error := none, searched := false }

/-- Error message set when the model call fails (line 86). -/
def fetchErrorMsg : List Char :=
  "Ürünler alınırken bir hata oluştu. Lütfen tekrar deneyin.".data

/-- Error message set when the response does not parse as JSON (line 80). -/
def parseErrorMsg : List Char :=
  "Yanıtta bir hata oluştu. Model beklenen formatta veri göndermedi.".data

/-- Error message set when speech recognition is unavailable (line 99). -/
def voiceUnsupportedMsg : List Char :=
  "Tarayıcınız ses tanımayı desteklemiyor.".data

/-- Outcome of the generateContent call: either a request-level failure or a
response carrying a text and optionally a list of grounding chunks. -/
inductive ModelResult where
  | failure
  | success (text : List Char) (chunks : Option (List GroundingChunk))

/-- Lines 42-46: state updates performed at the start of a non-blank search,
before the model is contacted. -/
def beginSearch (st : AppState) : AppState :=
  { st with
    isLoading := true,
    error := none,
    products := JValue.arr [],
    sources := [],
    searched := true }

/-- Lines 48-89: handling of the model call outcome, including the catch and
finally clauses.  The JSON parse builtin is passed in as parse.  A payload
that parses to null makes the property read jsonResponse.products throw a
TypeError inside the inner try, which the inner catch turns into the same
state as a parse failure. -/
def applyModelResult (parse : List Char → Option JValue) (st : AppState) :
    ModelResult → AppState
  | ModelResult.failure => { st with error := some fetchErrorMsg, isLoading := false }
  | ModelResult.success text chunks =>
    let st1 := match chunks with
      | some cs => { st with sources := uniqueSources (webSources cs) }
      | none => st
    let st2 := match parse (extractPayload text) with
      | some JValue.null =>
        { st1 with error := some parseErrorMsg, products := JValue.arr [] }
      | some v =>
        { st1 with products := jsOrElse (jsField v productsKey) (JValue.arr []) }
      | none =>
        { st1 with error := some parseErrorMsg, products := JValue.arr [] }
    { st2 with isLoading := false }

/-- Lines 39-90: the fetchProducts callback as a state transition.  A blank
query returns without any update; otherwise the state is reset and the model
call outcome is applied. -/
def fetchProducts (parse : List Char → Option JValue) (st : AppState)
    (searchQuery : List Char) (res : ModelResult) : AppState :=
  if jsTrim searchQuery = [] then st
  else applyModelResult parse (beginSearch st) res

/-- What the status area shows (renderStatus, lines 131-148). -/
inductive StatusView where
  | loader
  | listeningMsg
  | errorMsg (msg : List Char)
  | emptyMsg
  | initialMsg
  | nothing
deriving DecidableEq

/-- Lines 141-147 of renderStatus: the branches after the loading, listening
and error checks. -/
def renderStatusTail (st : AppState) : StatusView :=
  if st.searched && !st.isLoading && jsLengthEqZero st.products then
    StatusView.emptyMsg
  else if !st.searched then StatusView.initialMsg
  else StatusView.nothing

/-- Lines 131-148: renderStatus.  The error branch fires on a truthy error,
that is a present, non-empty message. -/
def renderStatus (st : AppState) : StatusView :=
  if st.isLoading then StatusView.loader
  else if st.isListening then StatusView.listeningMsg
  else
    match st.error with
    | some m => if m = [] then renderStatusTail st else StatusView.errorMsg m
    | none => renderStatusTail st

/-- What a call of handleVoiceSearch does about speech recognition. -/
inductive VoiceAction where
  | showUnsupported
  | ignored
  | started
deriving DecidableEq

/-- Lines 97-129: handleVoiceSearch up to recognition.start().  The browser
support flag models the SpeechRecognition constructor being available. -/
def handleVoiceSearch (supported : Bool) (st : AppState) :
    AppState × VoiceAction :=
  if !supported then
    ({ st with error := some voiceUnsupportedMsg }, VoiceAction.showUnsupported)
  else if st.isListening || st.isLoading then (st, VoiceAction.ignored)
  else ({ st with isListening := true, error := none }, VoiceAction.started)

/-- Line 181: disabled attribute of the text input. -/
def searchInputDisabled (st : AppState) : Bool :=
  st.isLoading || st.isListening

/-- Line 183: disabled attribute of the search button. -/
def searchButtonDisabled (st : AppState) : Bool :=
  st.isLoading || st.isListening || decide (jsTrim st.query = [])

/-- Line 210: the label of a rendered citation link, truncated to the first
47 characters plus an ellipsis when the title is longer than 50 characters. -/
def renderSourceTitle (t : List Char) : List Char :=
  if 50 < t.length then t.take 47 ++ "...".data else t

/-! Specification-side definitions.  These follow the wording of the claims
and are compared with the functions embedded from the source. -/

/-- The pattern occurs in t starting at index i. -/
def occursAt (pat t : List Char) (i : Nat) : Prop :=
  leadsWith pat (t.drop i) = true

instance (pat t : List Char) (i : Nat) : Decidable (occursAt pat t i) := by
  unfold occursAt
  infer_instance

/-- The text t contains a markdown-fenced json code block with content c,
preceded by a and followed by b. -/
def BlockSplit (t a c b : List Char) : Prop :=
  t = a ++ jsonFence ++ c ++ closeFence ++ b

/-- The decomposition of t around its first json code block: no opening
fence occurs before the one after a, and no closing fence occurs inside c.
This is the block matched by the lazy regular expression of line 70. -/
def IsFirstBlock (t a c b : List Char) : Prop :=
  BlockSplit t a c b ∧
  (∀ i < a.length, ¬ occursAt jsonFence t i) ∧
  (∀ i < c.length, ¬ occursAt closeFence (c ++ closeFence ++ b) i)

instance (t a c b : List Char) : Decidable (IsFirstBlock t a c b) := by
  unfold IsFirstBlock BlockSplit
  infer_instance

/-- Keep the first occurrence of every element, in order of first
occurrence. -/
def dedupKeepFirst : List (List Char) → List (List Char)
  | [] => []
  | a :: l => a :: (dedupKeepFirst l).filter (fun b => !(b == a))

/-- Does a runtime JSON value carry the given field with a string value? -/
def hasStrField (v : JValue) (k : List Char) : Bool :=
  match jsField v k with
  | some (JValue.str _) => true
  | _ => false

/-- Does a runtime JSON value have all five string fields of the Product
interface (lines 14-20)? -/
def isProductRecord (v : JValue) : Bool :=
  hasStrField v ("name".data) && hasStrField v ("description".data) &&
  hasStrField v ("price".data) && hasStrField v ("imageUrl".data) &&
  hasStrField v ("productUrl".data)

/-! Concrete inputs used to evaluate the theorems below. -/

/-- Response text whose trimmed form is exactly a fenced block with empty
content. -/
def cexEmptyBlockText : List Char := "```json\n\n```".data

/-- Response text with a fenced block around the content AB. -/
def sampleBlockText : List Char := " ```json\nAB\n``` ".data

/-- Concrete model response whose products array holds a record without any
of the five Product fields. -/
def cexProductsText : List Char :=
  "```json\n\x7b\"products\":[\x7b\x7d]\x7d\n```".data

/-- JSON parse oracle agreeing with the JSON builtin on the payload of
cexProductsText: that payload parses to an object whose products field is a
one-element array holding the empty object. -/
def cexProductsParse : List Char → Option JValue :=
  fun s =>
    if s = ("\x7b\"products\":[\x7b\x7d]\x7d".data) then
      some (JValue.obj [(productsKey, JValue.arr [JValue.obj []])])
    else none

/-- Grounding chunks with a duplicated uri, a chunk without a web part and a
chunk without a title. -/
def sampleChunks : List GroundingChunk :=
  [⟨some ⟨"a".data, some ("t1".data)⟩⟩, ⟨none⟩,
   ⟨some ⟨"b".data, none⟩⟩, ⟨some ⟨"a".data, some ("t2".data)⟩⟩]

/-- Grounding chunks with a title-less chunk and a chunk whose uri is the
empty string. -/
def sampleChunks7 : List GroundingChunk :=
  [⟨some ⟨"u".data, none⟩⟩, ⟨some ⟨[], some ("x".data)⟩⟩]

/-! Theorems. -/

theorem jsTrim_nil_of_ws (q : List Char)
    (h : ∀ c ∈ q, isJSWhitespace c = true) : jsTrim q = [] := by
  unfold jsTrim
  rw [List.dropWhile_eq_nil_iff.mpr h]
  rfl

/-- C8: a query that is empty or consists only of whitespace makes
fetchProducts return immediately: whatever the request outcome would have
been, the whole state (products, sources, error, loading flag and searched
flag) keeps its previous value. -/
theorem fetchProducts_blank_noop (parse : List Char → Option JValue)
    (st : AppState) (q : List Char) (res : ModelResult)
    (h : ∀ c ∈ q, isJSWhitespace c = true) :
    fetchProducts parse st q res = st := by
  unfold fetchProducts
  rw [if_pos (jsTrim_nil_of_ws q h)]

theorem fetchProducts_blank_noop_w :
    fetchProducts (fun _ => none) initialState (" \u3000".data)
      ModelResult.failure = initialState :=
  fetchProducts_blank_noop (fun _ => none) initialState (" \u3000".data)
    ModelResult.failure (by decide)

theorem applyModelResult_searched (parse : List Char → Option JValue)
    (st : AppState) (res : ModelResult) :
    (applyModelResult parse st res).searched = st.searched := by
  cases res with
  | failure => rfl
  | success text chunks =>
    cases chunks <;> cases hp : parse (extractPayload text) <;>
      try simp [applyModelResult, hp]
    all_goals rename_i v; cases v <;> simp [applyModelResult, hp]

/-- C9: a non-blank fetchProducts call first resets the view state: it
factors through beginSearch, which clears the error and empties the
products and sources lists before the model outcome is applied, and sets
the searched flag, which the rest of the call never unsets. -/
theorem fetchProducts_resets_first (parse : List Char → Option JValue)
    (st : AppState) (q : List Char) (res : ModelResult)
    (h : jsTrim q ≠ []) :
    fetchProducts parse st q res =
      applyModelResult parse (beginSearch st) res ∧
    (beginSearch st).error = none ∧
    (beginSearch st).products = JValue.arr [] ∧
    (beginSearch st).sources = [] ∧
    (beginSearch st).searched = true ∧
    (fetchProducts parse st q res).searched = true := by
  have hf : fetchProducts parse st q res =
      applyModelResult parse (beginSearch st) res := by
    unfold fetchProducts
    rw [if_neg h]
  refine ⟨hf, rfl, rfl, rfl, rfl, ?_⟩
  rw [hf, applyModelResult_searched]
  rfl

theorem fetchProducts_resets_first_w :
    fetchProducts (fun _ => none) initialState ("tv".data)
        ModelResult.failure =
      applyModelResult (fun _ => none) (beginSearch initialState)
        ModelResult.failure ∧
    (beginSearch initialState).error = none ∧
    (fetchProducts (fun _ => none) initialState ("tv".data)
        ModelResult.failure).searched = true :=
  ⟨(fetchProducts_resets_first (fun _ => none) initialState ("tv".data)
      ModelResult.failure (by decide)).1,
   (fetchProducts_resets_first (fun _ => none) initialState ("tv".data)
      ModelResult.failure (by decide)).2.1,
   (fetchProducts_resets_first (fun _ => none) initialState ("tv".data)
      ModelResult.failure (by decide)).2.2.2.2.2⟩

/-- C10: rendered citation link labels are at most 50 characters long:
titles longer than 50 characters become their first 47 characters followed
by an ellipsis, shorter titles are rendered unchanged. -/
theorem renderSourceTitle_spec (t : List Char) :
    (renderSourceTitle t).length ≤ 50 ∧
    (50 < t.length → renderSourceTitle t = t.take 47 ++ "...".data) ∧
    (t.length ≤ 50 → renderSourceTitle t = t) := by
  unfold renderSourceTitle
  by_cases h : 50 < t.length
  · rw [if_pos h]
    refine ⟨?_, fun _ => rfl, fun hle => absurd h (by omega)⟩
    simp [List.length_take]
  · rw [if_neg h]
    exact ⟨by omega, fun hgt => absurd hgt h, fun _ => rfl⟩

theorem renderSourceTitle_spec_w :
    renderSourceTitle
        ("aaaaaaaaaaaaaaaaaaaaaaaaaaaaaaaaaaaaaaaaaaaaaaaaaaa".data) =
      ("aaaaaaaaaaaaaaaaaaaaaaaaaaaaaaaaaaaaaaaaaaaaaaaaaaa".data).take 47 ++
        "...".data :=
  (renderSourceTitle_spec _).2.1 (by decide)

/-- C5: while a request is loading or voice listening is active, the text
input and the search button are disabled, and handleVoiceSearch does not
start recognition, so no second model request can be started from any such
state. -/
theorem single_inflight_guards (st : AppState) (supported : Bool)
    (h : st.isLoading = true ∨ st.isListening = true) :
    searchInputDisabled st = true ∧
    searchButtonDisabled st = true ∧
    (handleVoiceSearch supported st).2 ≠ VoiceAction.started := by
  unfold searchInputDisabled searchButtonDisabled handleVoiceSearch
  rcases h with h | h <;> cases supported <;> simp [h]

theorem single_inflight_guards_w :
    searchInputDisabled { initialState with isLoading := true } = true ∧
    searchButtonDisabled { initialState with isLoading := true } = true ∧
    (handleVoiceSearch true { initialState with isLoading := true }).2 ≠
      VoiceAction.started :=
  single_inflight_guards { initialState with isLoading := true } true
    (Or.inl rfl)

/-- C4: the status area shows exactly one view with fixed precedence: the
loader while loading; otherwise the listening message while listening;
otherwise a set (non-empty) error message; otherwise the empty-result
message when a search has completed with zero products; otherwise the
initial prompt when no search has happened; and nothing when results are
shown. -/
theorem renderStatus_cases (st : AppState) :
    (st.isLoading = true → renderStatus st = StatusView.loader) ∧
    (st.isLoading = false → st.isListening = true →
      renderStatus st = StatusView.listeningMsg) ∧
    (∀ m, st.isLoading = false → st.isListening = false →
      st.error = some m → m ≠ [] →
      renderStatus st = StatusView.errorMsg m) ∧
    (st.isLoading = false → st.isListening = false → st.error = none →
      st.searched = true → jsLengthEqZero st.products = true →
      renderStatus st = StatusView.emptyMsg) ∧
    (st.isLoading = false → st.isListening = false → st.error = none →
      st.searched = false → renderStatus st = StatusView.initialMsg) ∧
    (st.isLoading = false → st.isListening = false → st.error = none →
      st.searched = true → jsLengthEqZero st.products = false →
      renderStatus st = StatusView.nothing) := by
  refine ⟨fun h1 => ?_, fun h1 h2 => ?_, fun m h1 h2 h3 h4 => ?_,
    fun h1 h2 h3 h4 h5 => ?_, fun h1 h2 h3 h4 => ?_,
    fun h1 h2 h3 h4 h5 => ?_⟩ <;>
    simp [renderStatus, renderStatusTail, *]

theorem renderStatus_cases_w :
    renderStatus { initialState with
      searched := true,
      products := JValue.obj [("length".data, JValue.num 0)] } =
      StatusView.emptyMsg :=
  (renderStatus_cases { initialState with
      searched := true,
      products := JValue.obj [("length".data, JValue.num 0)] }).2.2.2.1
    rfl rfl rfl rfl (by decide)

/-- C3: when the extracted payload fails to parse, the parse error message
is set and the products are left empty; a request-level failure sets the
fetch error message; and the loading flag is false when fetchProducts
terminates (the blank-query early return leaves the state untouched, so the
flag stays false whenever it was false at the call, which the input guards
ensure). -/
theorem fetchProducts_error_handling (parse : List Char → Option JValue)
    (st : AppState) (q : List Char) (res : ModelResult) :
    (jsTrim q ≠ [] → res = ModelResult.failure →
      (fetchProducts parse st q res).error = some fetchErrorMsg) ∧
    (∀ text chunks, jsTrim q ≠ [] → res = ModelResult.success text chunks →
      parse (extractPayload text) = none →
      (fetchProducts parse st q res).error = some parseErrorMsg ∧
      (fetchProducts parse st q res).products = JValue.arr []) ∧
    (st.isLoading = false → (fetchProducts parse st q res).isLoading = false) := by
  refine ⟨fun hq hres => ?_, fun text chunks hq hres hp => ?_, fun hl => ?_⟩
  · subst hres
    unfold fetchProducts
    rw [if_neg hq]
    rfl
  · subst hres
    unfold fetchProducts
    rw [if_neg hq]
    cases chunks <;> simp [applyModelResult, hp]
  · unfold fetchProducts
    by_cases hq : jsTrim q = []
    · rw [if_pos hq]
      exact hl
    · rw [if_neg hq]
      cases res with
      | failure => rfl
      | success text chunks =>
        cases chunks <;> cases hp : parse (extractPayload text) <;>
          simp [applyModelResult, hp]

theorem fetchProducts_error_handling_w :
    (fetchProducts (fun _ => none) initialState ("tv".data)
        (ModelResult.success ("x".data) none)).error = some parseErrorMsg ∧
    (fetchProducts (fun _ => none) initialState ("tv".data)
        (ModelResult.success ("x".data) none)).products = JValue.arr [] :=
  (fetchProducts_error_handling (fun _ => none) initialState ("tv".data)
      (ModelResult.success ("x".data) none)).2.1 ("x".data) none
    (by decide) rfl rfl

/-- C6 (amended): products parsed from the model's JSON-formatted text
response are stored verbatim: when the payload parses, the stored products
value is exactly the parsed value's products field (or an empty array when
that field is absent or falsy); the code performs no validation, so a
stored product need not carry the five Product fields. -/
theorem fetchProducts_products_verbatim (parse : List Char → Option JValue)
    (st : AppState) (q : List Char) (text : List Char)
    (chunks : Option (List GroundingChunk)) (v : JValue)
    (hq : jsTrim q ≠ []) (hp : parse (extractPayload text) = some v) :
    (fetchProducts parse st q (ModelResult.success text chunks)).products =
      jsOrElse (jsField v productsKey) (JValue.arr []) := by
  unfold fetchProducts
  rw [if_neg hq]
  cases chunks <;> cases v <;> simp [applyModelResult, hp, jsField, jsOrElse]

/-- C6 is refuted as stated: after this successful search the stored
products array holds the field-less record, which has none of the five
string fields required of a Product. -/
theorem fetchProducts_products_unvalidated_cex :
    (fetchProducts cexProductsParse initialState ("tv".data)
        (ModelResult.success cexProductsText none)).products =
      JValue.arr [JValue.obj []] ∧
    isProductRecord (JValue.obj []) = false := ⟨rfl, rfl⟩

theorem fetchProducts_products_verbatim_w :
    (fetchProducts cexProductsParse initialState ("ev".data)
        (ModelResult.success cexProductsText none)).products =
      jsOrElse
        (jsField (JValue.obj [(productsKey, JValue.arr [JValue.obj []])])
          productsKey)
        (JValue.arr []) :=
  fetchProducts_products_verbatim cexProductsParse initialState ("ev".data)
    cexProductsText none
    (JValue.obj [(productsKey, JValue.arr [JValue.obj []])])
    (by decide) rfl

theorem leadsWith_append (p r : List Char) : leadsWith p (p ++ r) = true := by
  induction p with
  | nil => rfl
  | cons x ps ih => simp [leadsWith, ih]

theorem leadsWith_decomp (p : List Char) :
    ∀ s, leadsWith p s = true → s = p ++ s.drop p.length := by
  induction p with
  | nil => intro s _; simp
  | cons x ps ih =>
    intro s h
    cases s with
    | nil => simp [leadsWith] at h
    | cons c cs =>
      simp only [leadsWith, Bool.and_eq_true, beq_iff_eq] at h
      obtain ⟨rfl, hl⟩ := h
      show x :: cs = x :: (ps ++ cs.drop ps.length)
      exact congrArg (List.cons x) (ih cs hl)

theorem dropThroughFirst_cons_pos (pat t : List Char)
    (h : leadsWith pat t = true) (ht : t ≠ []) :
    dropThroughFirst pat t = some (t.drop pat.length) := by
  cases t with
  | nil => exact absurd rfl ht
  | cons c rest => simp only [dropThroughFirst, if_pos h]

theorem dropThroughFirst_cons_neg (pat : List Char) (c : Char)
    (rest : List Char) (h : ¬ leadsWith pat (c :: rest) = true) :
    dropThroughFirst pat (c :: rest) = dropThroughFirst pat rest := by
  simp only [dropThroughFirst, if_neg h]

theorem takeUntilFirst_cons_pos (pat t : List Char)
    (h : leadsWith pat t = true) (ht : t ≠ []) :
    takeUntilFirst pat t = some [] := by
  cases t with
  | nil => exact absurd rfl ht
  | cons c rest => simp only [takeUntilFirst, if_pos h]

theorem takeUntilFirst_cons_neg (pat : List Char) (c : Char)
    (rest : List Char) (h : ¬ leadsWith pat (c :: rest) = true) :
    takeUntilFirst pat (c :: rest) =
      (takeUntilFirst pat rest).map (fun l => c :: l) := by
  simp only [takeUntilFirst, if_neg h]

theorem dropThroughFirst_some (pat : List Char) :
    ∀ t r, dropThroughFirst pat t = some r →
      ∃ a, t = a ++ pat ++ r ∧ ∀ i < a.length, ¬ occursAt pat t i := by
  intro t
  induction t with
  | nil => intro r h; simp [dropThroughFirst] at h
  | cons c rest ih =>
    intro r h
    simp only [dropThroughFirst] at h
    by_cases hl : leadsWith pat (c :: rest) = true
    · rw [if_pos hl] at h
      obtain rfl : (c :: rest).drop pat.length = r := by injection h
      refine ⟨[], ?_, by intro i hi; simp at hi⟩
      simpa using leadsWith_decomp pat (c :: rest) hl
    · rw [if_neg hl] at h
      obtain ⟨a, hdec, hmin⟩ := ih r h
      refine ⟨c :: a, by simp [hdec], ?_⟩
      intro i hi
      cases i with
      | zero => exact hl
      | succ j =>
        exact hmin j (by simp only [List.length_cons] at hi; omega)

theorem dropThroughFirst_complete (pat : List Char) (hpat : pat ≠ []) :
    ∀ a t r, t = a ++ pat ++ r → (∀ i < a.length, ¬ occursAt pat t i) →
      dropThroughFirst pat t = some r := by
  intro a
  induction a with
  | nil =>
    intro t r hdec _
    have h1 : t = pat ++ r := by rw [hdec]; simp
    rw [h1, dropThroughFirst_cons_pos pat (pat ++ r) (leadsWith_append pat r)
      (fun hnil => hpat (List.append_eq_nil.mp hnil).1)]
    rw [List.drop_left]
  | cons x a2 ih =>
    intro t r hdec hmin
    have h1 : t = x :: (a2 ++ pat ++ r) := by rw [hdec]; simp
    subst hdec
    rw [h1] at hmin ⊢
    have h0 : ¬ leadsWith pat (x :: (a2 ++ pat ++ r)) = true :=
      hmin 0 (by simp)
    rw [dropThroughFirst_cons_neg pat x (a2 ++ pat ++ r) h0]
    apply ih (a2 ++ pat ++ r) r rfl
    intro i hi
    exact hmin (i + 1) (by simp only [List.length_cons]; omega)

theorem takeUntilFirst_some (pat : List Char) :
    ∀ u c, takeUntilFirst pat u = some c →
      ∃ b, u = c ++ pat ++ b ∧ ∀ i < c.length, ¬ occursAt pat u i := by
  intro u
  induction u with
  | nil => intro c h; simp [takeUntilFirst] at h
  | cons x rest ih =>
    intro c h
    simp only [takeUntilFirst] at h
    by_cases hl : leadsWith pat (x :: rest) = true
    · rw [if_pos hl] at h
      obtain rfl : ([] : List Char) = c := by injection h
      refine ⟨(x :: rest).drop pat.length, ?_, by intro i hi; simp at hi⟩
      simpa using leadsWith_decomp pat (x :: rest) hl
    · rw [if_neg hl] at h
      cases hr : takeUntilFirst pat rest with
      | none =>
        rw [hr] at h
        simp at h
      | some c2 =>
        rw [hr] at h
        simp only [Option.map_some', Option.some.injEq] at h
        obtain ⟨b, hdec, hmin⟩ := ih c2 hr
        subst h
        refine ⟨b, by simp [hdec], ?_⟩
        intro i hi
        cases i with
        | zero => exact hl
        | succ j =>
          exact hmin j (by simp only [List.length_cons] at hi; omega)

theorem takeUntilFirst_complete (pat : List Char) (hpat : pat ≠ []) :
    ∀ c u b, u = c ++ pat ++ b → (∀ i < c.length, ¬ occursAt pat u i) →
      takeUntilFirst pat u = some c := by
  intro c
  induction c with
  | nil =>
    intro u b hdec _
    have h1 : u = pat ++ b := by rw [hdec]; simp
    rw [h1, takeUntilFirst_cons_pos pat (pat ++ b) (leadsWith_append pat b)
      (fun hnil => hpat (List.append_eq_nil.mp hnil).1)]
  | cons y c2 ih =>
    intro u b hdec hmin
    have h1 : u = y :: (c2 ++ pat ++ b) := by rw [hdec]; simp
    subst hdec
    rw [h1] at hmin ⊢
    have h0 : ¬ leadsWith pat (y :: (c2 ++ pat ++ b)) = true :=
      hmin 0 (by simp)
    rw [takeUntilFirst_cons_neg pat y (c2 ++ pat ++ b) h0]
    rw [ih (c2 ++ pat ++ b) b rfl
      (fun i hi => hmin (i + 1) (by simp only [List.length_cons]; omega))]
    rfl

theorem regexBlockContent_some (t c : List Char)
    (h : regexBlockContent t = some c) : ∃ a b, BlockSplit t a c b := by
  unfold regexBlockContent at h
  cases hd : dropThroughFirst jsonFence t with
  | none => rw [hd] at h; simp at h
  | some r =>
    rw [hd] at h
    have h2 : takeUntilFirst closeFence r = some c := h
    obtain ⟨a, hdec, _⟩ := dropThroughFirst_some jsonFence t r hd
    obtain ⟨b, hdec2, _⟩ := takeUntilFirst_some closeFence r c h2
    refine ⟨a, b, ?_⟩
    unfold BlockSplit
    rw [hdec, hdec2]
    simp

theorem regexBlockContent_of_first (t a c b : List Char)
    (h : IsFirstBlock t a c b) : regexBlockContent t = some c := by
  obtain ⟨hdec, hopen, hclose⟩ := h
  unfold BlockSplit at hdec
  unfold regexBlockContent
  rw [dropThroughFirst_complete jsonFence (by decide) a t
    (c ++ closeFence ++ b) (by rw [hdec]; simp) hopen]
  exact takeUntilFirst_complete closeFence (by decide) c
    (c ++ closeFence ++ b) b rfl hclose

/-- C1 (amended): the payload handed to the JSON parser is the content of
the first markdown-fenced json code block of the trimmed response text when
that content is non-empty; when the first block has empty content, or when
no such block exists, the payload is the whole trimmed text. -/
theorem extractPayload_spec (s : List Char) :
    (∀ a c b, IsFirstBlock (jsTrim s) a c b →
      extractPayload s = if c = [] then jsTrim s else c) ∧
    ((¬ ∃ a c b, BlockSplit (jsTrim s) a c b) →
      extractPayload s = jsTrim s) := by
  constructor
  · intro a c b h
    unfold extractPayload
    simp only [regexBlockContent_of_first (jsTrim s) a c b h]
  · intro hno
    unfold extractPayload
    cases hr : regexBlockContent (jsTrim s) with
    | none => simp only [hr]
    | some c =>
      obtain ⟨a, b, hab⟩ := regexBlockContent_some (jsTrim s) c hr
      exact absurd ⟨a, c, b, hab⟩ hno

/-- C1 is refuted as stated: this response text is exactly a fenced json
block whose content is the empty string, yet the payload handed to the
parser is the whole trimmed text, not that (empty) content. -/
theorem extractPayload_cex :
    IsFirstBlock (jsTrim cexEmptyBlockText) [] [] [] ∧
    extractPayload cexEmptyBlockText ≠ [] := by
  constructor
  · decide
  · decide

theorem extractPayload_spec_w :
    extractPayload sampleBlockText = "AB".data := by
  have h := (extractPayload_spec sampleBlockText).1 [] ("AB".data) []
    (by decide)
  simpa using h

theorem any_fst_eq_map (m : List (List Char × Source)) (u : List Char) :
    m.any (fun p => p.1 == u) = (m.map Prod.fst).any (fun k => k == u) := by
  induction m with
  | nil => rfl
  | cons p m ih => simp only [List.any_cons, List.map_cons, ih]

theorem any_beq_iff (l : List (List Char)) (x : List Char) :
    l.any (fun k => k == x) = true ↔ x ∈ l := by
  constructor
  · intro h
    obtain ⟨a, ha, hax⟩ := List.any_eq_true.mp h
    have hax2 : a = x := by simpa using hax
    rw [← hax2]
    exact ha
  · intro hx
    exact List.any_eq_true.mpr ⟨x, hx, by simp⟩

theorem mem_dedupKeepFirst (x : List Char) (l : List (List Char)) :
    x ∈ dedupKeepFirst l ↔ x ∈ l := by
  induction l with
  | nil => simp [dedupKeepFirst]
  | cons a l ih =>
    by_cases hx : x = a
    · simp [dedupKeepFirst, hx]
    · simp [dedupKeepFirst, hx, List.mem_filter, ih]

theorem nodup_dedupKeepFirst (l : List (List Char)) :
    (dedupKeepFirst l).Nodup := by
  induction l with
  | nil => simp [dedupKeepFirst]
  | cons a l ih =>
    simp only [dedupKeepFirst]
    rw [List.nodup_cons]
    refine ⟨?_, ih.filter _⟩
    intro hmem
    rw [List.mem_filter] at hmem
    simp at hmem

theorem dedupKeepFirst_append (l : List (List Char)) (x : List Char) :
    dedupKeepFirst (l ++ [x]) =
      if x ∈ l then dedupKeepFirst l else dedupKeepFirst l ++ [x] := by
  induction l with
  | nil => simp [dedupKeepFirst]
  | cons a l ih =>
    simp only [List.cons_append, dedupKeepFirst, List.append_eq]
    rw [ih]
    by_cases hx : x ∈ l
    · rw [if_pos hx, if_pos (List.mem_cons_of_mem a hx)]
    · rw [if_neg hx]
      by_cases hxa : x = a
      · rw [if_pos (by simp [hxa]), List.filter_append]
        simp [hxa]
      · rw [if_neg (by simp [List.mem_cons, hxa, hx]), List.filter_append]
        simp [hxa]

theorem sourceStep_keys (m : List (List Char × Source)) (s : Source) :
    (sourceStep m s).map Prod.fst =
      if m.any (fun p => p.1 == s.uri) = true then m.map Prod.fst
      else m.map Prod.fst ++ [s.uri] := by
  unfold sourceStep
  by_cases h : m.any (fun p => p.1 == s.uri) = true
  · rw [if_pos h, if_pos h, List.map_map]
    refine List.map_congr_left ?_
    intro p _
    by_cases hps : (p.1 == s.uri) = true
    · simp only [Function.comp_apply, if_pos hps]
      exact (beq_iff_eq.mp hps).symm
    · simp only [Function.comp_apply, if_neg hps]
  · rw [if_neg h, if_neg h, List.map_append]
    rfl

theorem sourceStep_mem (m : List (List Char × Source)) (s : Source)
    (p : List Char × Source) (hp : p ∈ sourceStep m s) :
    p = (s.uri, s) ∨ (p ∈ m ∧ ¬ p.1 = s.uri) := by
  unfold sourceStep at hp
  by_cases h : m.any (fun q => q.1 == s.uri) = true
  · rw [if_pos h] at hp
    obtain ⟨q, hq, hqe⟩ := List.mem_map.mp hp
    by_cases hqs : (q.1 == s.uri) = true
    · rw [if_pos hqs] at hqe
      exact Or.inl hqe.symm
    · rw [if_neg hqs] at hqe
      subst hqe
      exact Or.inr ⟨hq, fun he => hqs (beq_iff_eq.mpr he)⟩
  · rw [if_neg h] at hp
    have h2 : m.any (fun q => q.1 == s.uri) = false := by
      cases hb : m.any (fun q => q.1 == s.uri)
      · rfl
      · exact absurd hb h
    have hall := List.any_eq_false.mp h2
    rcases List.mem_append.mp hp with hl | hr
    · exact Or.inr ⟨hl, fun he => (hall p hl) (by simp [he])⟩
    · have hps : p = (s.uri, s) := by simpa using hr
      exact Or.inl hps

theorem foldl_sourceStep_keys (ws : List Source) :
    (ws.foldl sourceStep []).map Prod.fst =
      dedupKeepFirst (ws.map Source.uri) := by
  induction ws using List.reverseRecOn with
  | nil => rfl
  | append_singleton l s ih =>
    rw [List.foldl_append, List.foldl_cons, List.foldl_nil, sourceStep_keys,
      List.map_append, List.map_cons, List.map_nil, dedupKeepFirst_append]
    have hc : (List.foldl sourceStep [] l).any (fun p => p.1 == s.uri) = true ↔
        s.uri ∈ l.map Source.uri := by
      rw [any_fst_eq_map, ih, any_beq_iff, mem_dedupKeepFirst]
    by_cases hmem : s.uri ∈ l.map Source.uri
    · rw [if_pos (hc.mpr hmem), if_pos hmem, ih]
    · rw [if_neg (fun hh => hmem (hc.mp hh)), if_neg hmem, ih]

theorem foldl_sourceStep_pairs (ws : List Source) :
    ∀ p ∈ ws.foldl sourceStep [], p.2.uri = p.1 ∧
      ws.reverse.find? (fun x => x.uri == p.1) = some p.2 := by
  induction ws using List.reverseRecOn with
  | nil => intro p hp; simp at hp
  | append_singleton l s ih =>
    intro p hp
    rw [List.foldl_append, List.foldl_cons, List.foldl_nil] at hp
    rw [List.reverse_append]
    simp only [List.reverse_cons, List.reverse_nil, List.nil_append,
      List.singleton_append]
    rcases sourceStep_mem _ s p hp with heq | ⟨hmem, hne⟩
    · subst heq
      refine ⟨rfl, ?_⟩
      rw [List.find?_cons_of_pos _ (by simp)]
    · obtain ⟨hu, hf⟩ := ih p hmem
      refine ⟨hu, ?_⟩
      rw [List.find?_cons_of_neg _ ?hpred]
      · exact hf
      case hpred =>
        simp only [beq_iff_eq]
        exact fun hh => hne hh.symm

/-- C2: the stored citation list has at most one entry per uri; its uris are
the mapped chunk uris deduplicated in order of first occurrence; and every
stored entry is the last mapped source carrying its uri, so the kept title
is the one from the last chunk with that uri. -/
theorem uniqueSources_dedup (chunks : List GroundingChunk) :
    ((uniqueSources (webSources chunks)).map Source.uri).Nodup ∧
    (uniqueSources (webSources chunks)).map Source.uri =
      dedupKeepFirst ((webSources chunks).map Source.uri) ∧
    ∀ s ∈ uniqueSources (webSources chunks),
      (webSources chunks).reverse.find? (fun x => x.uri == s.uri) = some s := by
  have hmap : (uniqueSources (webSources chunks)).map Source.uri =
      ((webSources chunks).foldl sourceStep []).map Prod.fst := by
    unfold uniqueSources
    rw [List.map_map]
    exact List.map_congr_left
      (fun p hp => (foldl_sourceStep_pairs (webSources chunks) p hp).1)
  refine ⟨?_, ?_, ?_⟩
  · rw [hmap, foldl_sourceStep_keys]
    exact nodup_dedupKeepFirst _
  · rw [hmap, foldl_sourceStep_keys]
  · intro s hs
    unfold uniqueSources at hs
    obtain ⟨p, hp, hps⟩ := List.mem_map.mp hs
    obtain ⟨hu, hf⟩ := foldl_sourceStep_pairs (webSources chunks) p hp
    rw [← hps, hu]
    exact hf

theorem uniqueSources_dedup_w :
    (uniqueSources (webSources sampleChunks)).map Source.uri =
      dedupKeepFirst ((webSources sampleChunks).map Source.uri) ∧
    (webSources sampleChunks).reverse.find?
        (fun x => x.uri == (Source.mk ("a".data) ("t2".data)).uri) =
      some (Source.mk ("a".data) ("t2".data)) :=
  ⟨(uniqueSources_dedup sampleChunks).2.1,
   (uniqueSources_dedup sampleChunks).2.2 (Source.mk ("a".data) ("t2".data))
     (by decide)⟩

theorem mem_webSources_uri (chunks : List GroundingChunk) (s : Source)
    (hs : s ∈ webSources chunks) : ¬ s.uri = [] := by
  unfold webSources at hs
  obtain ⟨c, _, he⟩ := List.mem_filterMap.mp hs
  cases hw : c.web with
  | none => rw [hw] at he; simp at he
  | some w =>
    rw [hw] at he
    dsimp only at he
    by_cases hu : w.uri = []
    · rw [if_pos hu] at he
      simp at he
    · rw [if_neg hu] at he
      simp only [Option.some.injEq] at he
      rw [← he]
      exact hu

/-- C7: every stored citation source is a uri/title pair whose uri is
non-empty and which comes from the mapped chunk list, and a chunk whose web
title is missing contributes the pair whose title equals its uri. -/
theorem sources_wellformed (chunks : List GroundingChunk) :
    (∀ s ∈ uniqueSources (webSources chunks),
      ¬ s.uri = [] ∧ s ∈ webSources chunks) ∧
    ∀ c ∈ chunks, ∀ w, c.web = some w → ¬ w.uri = [] → w.title = none →
      Source.mk w.uri w.uri ∈ webSources chunks := by
  constructor
  · intro s hs
    have hmem : s ∈ webSources chunks := by
      unfold uniqueSources at hs
      obtain ⟨p, hp, hps⟩ := List.mem_map.mp hs
      obtain ⟨_, hf⟩ := foldl_sourceStep_pairs (webSources chunks) p hp
      rw [← hps]
      exact List.mem_reverse.mp (List.mem_of_find?_eq_some hf)
    exact ⟨mem_webSources_uri chunks s hmem, hmem⟩
  · intro c hc w hw hu ht
    unfold webSources
    refine List.mem_filterMap.mpr ⟨c, hc, ?_⟩
    rw [hw]
    dsimp only
    rw [if_neg hu]
    unfold webTitle
    rw [ht]

theorem sources_wellformed_w :
    (¬ (Source.mk ("u".data) ("u".data)).uri = [] ∧
      Source.mk ("u".data) ("u".data) ∈ webSources sampleChunks7) ∧
    Source.mk ("u".data) ("u".data) ∈ webSources sampleChunks7 :=
  ⟨(sources_wellformed sampleChunks7).1 (Source.mk ("u".data) ("u".data))
     (by decide),
   (sources_wellformed sampleChunks7).2 (GroundingChunk.mk (some (GroundingWeb.mk ("u".data) none)))
     (by decide) (GroundingWeb.mk ("u".data) none) rfl (by decide) rfl⟩
